import Mathlib

set_option maxHeartbeats 1000000
set_option maxRecDepth 4000

/-!
Shallow embedding of the wikidata-filter core (src/main.rs): the statement
data model, the classifier and extractor functions, the unescape routine,
the line parser, the batch producer and the per-worker counting with the
final merge. Strings are modelled as lists of characters; Rust panics are
modelled as `Except` errors; the bundled reference data files are modelled
as parameters (a `RefTables` record). Whitespace is modelled as the six
ASCII whitespace characters.
-/

deriving instance DecidableEq for Except

namespace WikidataFilter

/-- Strings of the source program are modelled as lists of characters. -/
abbrev Str := List Char

/-- ASCII whitespace, modelling the regex character class for whitespace. -/
def isWS (c : Char) : Bool :=
  c = ' ' || c = '\t' || c = '\n' || c = '\r' || c = '\x0b' || c = '\x0c'

/-- ASCII letter, modelling the regex class `[a-zA-Z]`. -/
def isAsciiLetter (c : Char) : Bool :=
  ('a' ≤ c && c ≤ 'z') || ('A' ≤ c && c ≤ 'Z')

/-- ASCII letter or digit, modelling the regex class `[a-zA-Z0-9]`. -/
def isAsciiAlnum (c : Char) : Bool :=
  isAsciiLetter c || ('0' ≤ c && c ≤ '9')

/-- Hexadecimal digit as accepted by Rust's `from_str_radix(_, 16)`. -/
def hexDigit (c : Char) : Bool :=
  ('0' ≤ c && c ≤ '9') || ('a' ≤ c && c ≤ 'f') || ('A' ≤ c && c ≤ 'F')

/-- Value of a hexadecimal digit. -/
def hexVal (c : Char) : Nat :=
  if '0' ≤ c && c ≤ '9' then c.toNat - '0'.toNat
  else if 'a' ≤ c && c ≤ 'f' then c.toNat - 'a'.toNat + 10
  else c.toNat - 'A'.toNat + 10

/-- Boolean test that the first list is an initial segment of the second,
modelling Rust `str::starts_with` on the modelled strings. -/
def startsWithL : Str → Str → Bool
  | [], _ => true
  | _ :: _, [] => false
  | p :: ps, c :: cs => if p = c then startsWithL ps cs else false

/-- Models the Rust standard stripping of a leading pattern from a string:
returns the suffix after the pattern when the pattern is an initial
segment, and `none` otherwise. -/
def stripPre : Str → Str → Option Str
  | [], s => some s
  | _ :: _, [] => none
  | p :: ps, c :: cs => if p = c then stripPre ps cs else none

/-- `Subject` of a parsed statement (src/main.rs, enum `Subject`). -/
inductive Subject where
  | IRI (s : Str)
  | Blank (s : Str)
deriving DecidableEq, Repr

/-- The optional extra of a literal object (src/main.rs, enum `Extra`).
The source constructors are `None`, `Type` and `Lang`; `None` and `Type`
are keywords in Lean, so the constructors carry an `E` suffix here. -/
inductive Extra where
  | NoneE
  | TypeE (s : Str)
  | LangE (s : Str)
deriving DecidableEq, Repr

/-- `Object` of a parsed statement (src/main.rs, enum `Object`). -/
inductive Object where
  | IRI (s : Str)
  | Blank (s : Str)
  | Literal (value : Str) (extra : Extra)
deriving DecidableEq, Repr

/-- A parsed statement (src/main.rs, struct `Statement`). -/
structure Statement where
  subject : Subject
  predicate : Str
  object : Object
deriving DecidableEq, Repr

/-- The four immutable reference tables.  In the source they are loaded
from bundled data files (`PROPERTIES`, `IDENTIFIER_PROPERTIES` already
expanded to the two IRI forms, `LANGUAGES`, `LABELS`); the data files are
not part of the sources under verification, so the tables are parameters
here. -/
structure RefTables where
  properties : List Str
  identifier_properties : List Str
  languages : List Str
  labels : List Str

/-- The fixed entity IRI head (src/main.rs, `ENTITY_IRI_PREFIX`, a name the
verification file cannot carry verbatim). -/
def ENTITY_IRI_HEAD : Str := "http://www.wikidata.org/entity/Q".data

/-- The fixed direct-property IRI head (src/main.rs,
`DIRECT_PROPERTY_IRI_PREFIX`). -/
def DIRECT_PROPERTY_IRI_HEAD : Str := "http://www.wikidata.org/prop/direct/".data

/-- The fixed ignored entity-data URL head (src/main.rs, `ignored_subject`). -/
def IGNORED_ENTITY_DATA_HEAD : Str :=
  "https://www.wikidata.org/wiki/Special:EntityData".data

/-- The geo-shape datatype IRI matched in `is_acceptable`. -/
def GEO_SHAPE_DT : Str := "http://www.opengis.net/ont/geosparql#wktLiteral".data

/-- src/main.rs `ignored_subject`. -/
def ignored_subject (iri : Str) : Bool :=
  startsWithL IGNORED_ENTITY_DATA_HEAD iri

/-- src/main.rs `is_acceptable`: the accept-for-output decision. -/
def is_acceptable (T : RefTables) (statement : Statement) : Bool :=
  if T.properties.contains statement.predicate
      || T.identifier_properties.contains statement.predicate then
    false
  else
    match statement.subject with
    | Subject.Blank _ => false
    | Subject.IRI iri =>
      if ignored_subject iri then false
      else
        match statement.object with
        | Object.Blank _ => false
        | Object.Literal _ (Extra.LangE lang) =>
          if !(T.languages.contains lang) then false else true
        | Object.Literal lit (Extra.TypeE dt) =>
          if dt = GEO_SHAPE_DT && startsWithL ['<'] lit then false else true
        | _ => true

/-- src/main.rs `entity`: the entity identifier of a subject, when the
subject is an IRI carrying the fixed entity IRI head. -/
def entity (subject : Subject) : Option Str :=
  match subject with
  | Subject.IRI iri => stripPre ENTITY_IRI_HEAD iri
  | Subject.Blank _ => none

/-- src/main.rs `direct_property`. -/
def direct_property (predicate : Str) : Option Str :=
  stripPre DIRECT_PROPERTY_IRI_HEAD predicate

/-- One increment of a per-entity counter map, modelling
`*statement_counter.entry(id.to_string()).or_insert(0) += 1`. -/
def bump (m : Str → Nat) (id : Str) : Str → Nat :=
  fun k => if k = id then m id + 1 else m k

/-- src/main.rs `maybe_count_statement`: the counter is optional exactly as
the worker's `Option<HashMap<..>>` is. -/
def maybe_count_statement (counter : Option (Str → Nat)) (id : Str)
    (statement : Statement) : Option (Str → Nat) :=
  match counter with
  | none => none
  | some m =>
    match direct_property statement.predicate with
    | none => some m
    | some _ => some (bump m id)

/-- The counting step of `handle`: resolve the entity, then maybe count. -/
def countStep (counter : Option (Str → Nat)) (statement : Statement) :
    Option (Str → Nat) :=
  match entity statement.subject with
  | none => counter
  | some id => maybe_count_statement counter id statement

/-- The per-entity counts a single worker accumulates over the statements it
processes (the counting path of `consume`/`handle`). -/
def workerCounts (enabled : Bool) (sts : List Statement) : Option (Str → Nat) :=
  sts.foldl countStep (if enabled then some (fun _ => 0) else none)

/-- The aggregation loop of `main`: sum every present per-worker map into
one merged map. -/
def mergeAll (results : List (Option (Str → Nat))) : Str → Nat :=
  results.foldl
    (fun acc r =>
      match r with
      | none => acc
      | some m => fun k => acc k + m k)
    (fun _ => 0)

/-- Whether a statement is counted toward entity `k` by the code path
`entity` + `direct_property` (no acceptability test appears there). -/
def countsFor (k : Str) (statement : Statement) : Bool :=
  decide (entity statement.subject = some k)
    && (direct_property statement.predicate).isSome

/-- Number of statements of a run counted toward entity `k` by the code. -/
def directCount (sts : List Statement) (k : Str) : Nat :=
  sts.countP (countsFor k)

/-- Modelled from the claim's words for comparison: the number of accepted
(`is_acceptable`) direct-property statements whose subject resolves to `k`. -/
def acceptedDirectCount (T : RefTables) (sts : List Statement) (k : Str) : Nat :=
  sts.countP (fun st => is_acceptable T st && countsFor k st)

/-- Nonempty all-hexadecimal digit string evaluated as a hexadecimal
number. -/
def hexDigitsVal (ds : Str) : Option Nat :=
  if ds = [] then none
  else if ds.all hexDigit then
    some (ds.foldl (fun a c => a * 16 + hexVal c) 0)
  else none

/-- Models Rust `u32::from_str_radix(s, 16)`: an optional leading plus
sign followed by one or more hexadecimal digits.  A sequence of at most 8
hexadecimal digits cannot overflow `u32`, so no overflow case is needed. -/
def from_str_radix16 (s : Str) : Option Nat :=
  match s with
  | '+' :: rest => hexDigitsVal rest
  | _ => hexDigitsVal s

/-- Models Rust `char::from_u32` validity: a Unicode scalar value. -/
def isScalar (u : Nat) : Bool :=
  u < 0xd800 || (0xdfff < u && u < 0x110000)

/-- The fatal escape errors of `unescape` (modelled panics). Each carries
the offending index and the full input, as the panic messages do. -/
inductive EscErr where
  | atEnd (idx : Nat) (input : Str)
  | badEscape (c2 : Char) (idx : Nat) (input : Str)
  | badUnicode (intro : Char) (idx : Nat) (input : Str) (seq : Str)
deriving DecidableEq, Repr

/-- Models src/main.rs `parse_unicode` applied to an already-taken digit
sequence: the hexadecimal parse followed by the `char::from_u32` check;
`none` models the `Err` case (the caller panics). -/
def parse_unicode (seq : Str) : Option Nat :=
  match from_str_radix16 seq with
  | none => none
  | some u => if isScalar u then some u else none

/-- The classification of the character following a backslash, mirroring
the match arms of `unescape`. -/
inductive EscKind where
  | simple (v : Char)
  | uni4
  | uni8
  | bad
deriving DecidableEq, Repr

/-- Which escape a character introduces (the match of `unescape` on the
character after the backslash). -/
def escKind (c2 : Char) : EscKind :=
  if c2 = 't' then EscKind.simple '\t'
  else if c2 = 'b' then EscKind.simple '\x08'
  else if c2 = 'n' then EscKind.simple '\n'
  else if c2 = 'r' then EscKind.simple '\x0d'
  else if c2 = 'f' then EscKind.simple '\x0c'
  else if c2 = '\\' then EscKind.simple '\\'
  else if c2 = 'u' then EscKind.uni4
  else if c2 = 'U' then EscKind.uni8
  else EscKind.bad

/-- Worker loop of src/main.rs `unescape`: `full` is the whole input (used
in error payloads), the list argument is the remaining characters and the
numeric argument the index of its first character in `full`.  The `u`/`U`
escapes take up to 4/8 following characters, exactly as the source's
`chars.take(count)` does; when fewer remain the continuation is empty, so
the decoded character ends the output. -/
def unescapeGo (full : Str) (l : List Char) (i : Nat) : Except EscErr Str :=
  match l with
  | [] => Except.ok []
  | '\\' :: rest =>
    (match rest with
     | [] => Except.error (EscErr.atEnd i full)
     | c2 :: rest2 =>
       match escKind c2 with
       | EscKind.simple v => (unescapeGo full rest2 (i + 2)).map (fun r => v :: r)
       | EscKind.bad => Except.error (EscErr.badEscape c2 (i + 1) full)
       | EscKind.uni4 =>
         (match parse_unicode (rest2.take 4) with
          | none => Except.error (EscErr.badUnicode 'u' (i + 1) full (rest2.take 4))
          | some u =>
            (unescapeGo full (rest2.drop 4) (i + 2 + (rest2.take 4).length)).map
              (fun r => Char.ofNat u :: r))
       | EscKind.uni8 =>
         (match parse_unicode (rest2.take 8) with
          | none => Except.error (EscErr.badUnicode 'U' (i + 1) full (rest2.take 8))
          | some u =>
            (unescapeGo full (rest2.drop 8) (i + 2 + (rest2.take 8).length)).map
              (fun r => Char.ofNat u :: r)))
  | c :: rest => (unescapeGo full rest (i + 1)).map (fun r => c :: r)
termination_by l.length
decreasing_by all_goals (simp [List.length_drop]; try omega)

/-- src/main.rs `unescape`. -/
def unescape (s : Str) : Except EscErr Str := unescapeGo s s 0

/-- src/main.rs `label`: the optional label of a statement; the panic of
`unescape` surfaces as the error case. -/
def label (T : RefTables) (statement : Statement) : Except EscErr (Option Str) :=
  if !(T.labels.contains statement.predicate) then Except.ok none
  else
    match statement.object with
    | Object.Literal lab (Extra.LangE lang) =>
      if !(T.languages.contains lang) then Except.ok none
      else (unescape lab).map (fun u => some u)
    | _ => Except.ok none

/-- src/main.rs `maybe_write_line`: the bytes appended to the worker's
statement shard for one line. -/
def maybe_write_line (T : RefTables) (line : Str) (statement : Statement) : List Str :=
  if is_acceptable T statement then [line] else []

/-- src/main.rs `maybe_write_label`: the `(id, label)` records appended to
the worker's label shard for one statement (the shard line is rendered
from the pair). -/
def maybe_write_label (T : RefTables) (labelsEnabled : Bool) (id : Str)
    (statement : Statement) : Except EscErr (List (Str × Str)) :=
  if labelsEnabled then
    match label T statement with
    | Except.error e => Except.error e
    | Except.ok none => Except.ok []
    | Except.ok (some u) => Except.ok [(id, u)]
  else Except.ok []

/-- The label records `handle` emits for one statement when label output
is enabled: the subject must resolve to an entity first. -/
def labelRecords (T : RefTables) (statement : Statement) :
    Except EscErr (List (Str × Str)) :=
  match entity statement.subject with
  | none => Except.ok []
  | some id => maybe_write_label T true id statement

/-- Consume characters up to (and including) the first occurrence of the
delimiter, returning the consumed part and the remainder; `none` when the
delimiter is absent.  Models the regex pieces of the form
not-delimiter-star followed by the delimiter. -/
def takeUntilC (d : Char) : List Char → Option (Str × List Char)
  | [] => none
  | c :: rest =>
    if c = d then some ([], rest)
    else (takeUntilC d rest).map (fun p => (c :: p.1, p.2))

/-- Candidate matches of the regex blank-node piece (one or more
non-whitespace characters) in backtracking order: the prefixes of the
maximal non-whitespace run, longest first, each with the rest of the
input. -/
def blankSplits (chunk rest0 : List Char) : List (Str × List Char) :=
  (List.range chunk.length).map
    (fun i => (chunk.take (chunk.length - i), chunk.drop (chunk.length - i) ++ rest0))

/-- Greedy match of the regex subtag piece: zero or more groups of a
hyphen followed by one or more letters/digits, one group per step. -/
def subtagsMunch (l : List Char) : List Char :=
  match l with
  | dash :: rest =>
    if dash = '-' then
      (let sub := rest.takeWhile isAsciiAlnum
       if sub.isEmpty then []
       else '-' :: (sub ++ subtagsMunch (rest.drop sub.length)))
    else []
  | _ => []
termination_by l.length
decreasing_by simp [List.length_drop]; omega

/-- The datatype alternative of the optional literal extra. -/
def tryTypeExtra (l : List Char) : Extra :=
  match l with
  | '^' :: '^' :: '<' :: rest =>
    match takeUntilC '>' rest with
    | some p => Extra.TypeE p.1
    | none => Extra.NoneE
  | _ => Extra.NoneE

/-- The optional extra after a literal: a language tag (letters, then
optional hyphen-separated alphanumeric subtags), or a datatype IRI, or
nothing; alternatives tried in the regex order. -/
def parseExtra (l : List Char) : Extra :=
  match l with
  | '@' :: rest =>
    let letters := rest.takeWhile isAsciiLetter
    if letters.isEmpty then tryTypeExtra l
    else Extra.LangE (letters ++ subtagsMunch (rest.dropWhile isAsciiLetter))
  | _ => tryTypeExtra l

/-- The object alternatives of the regex: IRI, blank node, or quoted
literal with optional extra. -/
def parseObject (l : List Char) : Option Object :=
  match l.dropWhile isWS with
  | '<' :: rest => (takeUntilC '>' rest).map (fun p => Object.IRI p.1)
  | '_' :: ':' :: rest =>
    let chunk := rest.takeWhile (fun c => !(isWS c))
    if chunk.isEmpty then none else some (Object.Blank chunk)
  | '"' :: rest =>
    (takeUntilC '"' rest).map (fun p => Object.Literal p.1 (parseExtra p.2))
  | _ => none

/-- Predicate (always an IRI) followed by the object. -/
def parsePredObj (subj : Subject) (l : List Char) : Option Statement :=
  match l.dropWhile isWS with
  | '<' :: rest =>
    match takeUntilC '>' rest with
    | none => none
    | some p =>
      match parseObject p.2 with
      | none => none
      | some ob => some (Statement.mk subj p.1 ob)
  | _ => none

/-- The whole statement regex of src/main.rs (`RE`), anchored at the start
of the line: subject (IRI or blank node, where the blank-node length
backtracks against the rest of the pattern), predicate IRI, object.
Everything after the match is ignored. -/
def parseStatement (input : List Char) : Option Statement :=
  match input.dropWhile isWS with
  | '<' :: rest =>
    match takeUntilC '>' rest with
    | none => none
    | some p => parsePredObj (Subject.IRI p.1) p.2
  | '_' :: ':' :: rest =>
    let chunk := rest.takeWhile (fun c => !(isWS c))
    let rest0 := rest.dropWhile (fun c => !(isWS c))
    (blankSplits chunk rest0).findSome?
      (fun cand => parsePredObj (Subject.Blank cand.1) cand.2)
  | _ => none

/-- src/main.rs `parse`: a statement, or the panic (modelled as an error)
carrying the line number it was given and the offending text. -/
def parse (number : Nat) (input : Str) : Except (Nat × Str) Statement :=
  match parseStatement input with
  | some st => Except.ok st
  | none => Except.error (number, input)

/-- The fatal errors of the worker path: a parse panic or an escape
panic. -/
inductive Fatal where
  | parseErr (number : Nat) (line : Str)
  | escErr (e : EscErr)
deriving DecidableEq, Repr

/-- The observable state a worker accumulates: lines written to its
statement shard, label records written to its label shard, and its
optional per-entity counter map. -/
structure WState where
  written : List Str
  labelsOut : List (Str × Str)
  counts : Option (Str → Nat)

/-- src/main.rs `handle`: parse the line, maybe write it, resolve the
entity, maybe count, maybe write a label record. -/
def handle (T : RefTables) (labelsEnabled : Bool) (number : Nat) (line : Str)
    (st : WState) : Except Fatal WState :=
  match parse number line with
  | Except.error e => Except.error (Fatal.parseErr e.1 e.2)
  | Except.ok statement =>
    let st1 : WState :=
      { st with written := st.written ++ maybe_write_line T line statement }
    match entity statement.subject with
    | none => Except.ok st1
    | some id =>
      let st2 : WState :=
        { st1 with counts := maybe_count_statement st1.counts id statement }
      match maybe_write_label T labelsEnabled id statement with
      | Except.error e => Except.error (Fatal.escErr e)
      | Except.ok recs => Except.ok { st2 with labelsOut := st2.labelsOut ++ recs }

/-- The per-batch line loop of src/main.rs `consume`: every line of the
batch is handled with the batch's line-count tag as its reported number;
a panic stops the loop. -/
def runLines (T : RefTables) (labelsEnabled : Bool) (number : Nat) :
    List Str → WState → Except Fatal WState
  | [], st => Except.ok st
  | l :: rest, st =>
    match handle T labelsEnabled number l st with
    | Except.error e => Except.error e
    | Except.ok st2 => runLines T labelsEnabled number rest st2

/-- A worker consuming a sequence of batches in order. -/
def runBatches (T : RefTables) (labelsEnabled : Bool) :
    List (Nat × List Str) → WState → Except Fatal WState
  | [], st => Except.ok st
  | b :: rest, st =>
    match runLines T labelsEnabled b.1 b.2 st with
    | Except.error e => Except.error e
    | Except.ok st2 => runBatches T labelsEnabled rest st2

/-- Loop body of src/main.rs `produce` for one input stream, without the
cancellation check: the `running` flag is read by the producer before each
line, but the handler model (`ctrlcHandler`) shows the program never
stores `false` into it, so the interrupted branch is unreachable and the
uninterrupted behaviour is total.  Arguments: lines read so far, the
batch being accumulated, the remaining input lines. -/
def produceAux (skip : Nat) : Nat → List Str → List Str → List (Nat × List Str)
  | total, acc, [] => if acc.isEmpty then [] else [(total, acc)]
  | total, acc, line :: rest =>
    let t := total + 1
    if t < skip then produceAux skip t acc rest
    else
      let acc2 := acc ++ [line]
      if t % 100 = 0 then (t, acc2) :: produceAux skip t [] rest
      else produceAux skip t acc2 rest

/-- src/main.rs `produce`: the batches handed off for one input stream,
each tagged with the running count of lines read (the batch size constant
is 100). -/
def produce (skip : Nat) (input : List Str) : List (Nat × List Str) :=
  produceAux skip 0 [] input

/-- Running totals: `scanAdd base [n1, n2, ...] = [base+n1, base+n1+n2, ...]`.
Used to state that each batch tag is the cumulative line count up to and
including the batch's last line. -/
def scanAdd (base : Nat) : List Nat → List Nat
  | [] => []
  | n :: rest => (base + n) :: scanAdd (base + n) rest

/-- Canonical text of a subject, as it appears in a dump line. -/
def renderSubject : Subject → Str
  | Subject.IRI s => '<' :: (s ++ ['>'])
  | Subject.Blank s => '_' :: ':' :: s

/-- Canonical text of a literal extra. -/
def renderExtra : Extra → Str
  | Extra.NoneE => []
  | Extra.LangE t => '@' :: t
  | Extra.TypeE t => '^' :: '^' :: '<' :: (t ++ ['>'])

/-- Canonical text of an object. -/
def renderObject : Object → Str
  | Object.IRI s => '<' :: (s ++ ['>'])
  | Object.Blank s => '_' :: ':' :: s
  | Object.Literal v e => '"' :: (v ++ '"' :: renderExtra e)

/-- Canonical text of a whole statement, single spaces between tokens. -/
def render (st : Statement) : Str :=
  renderSubject st.subject ++
    ' ' :: '<' :: (st.predicate ++ '>' :: ' ' :: renderObject st.object)

/-- An IRI printable inside angle brackets: no closing bracket inside. -/
def wfIRI (s : Str) : Bool := s.all (fun c => !(c = '>'))

/-- A printable blank-node name: nonempty, no whitespace. -/
def wfBlank (s : Str) : Bool := !s.isEmpty && s.all (fun c => !(isWS c))

/-- A language tag of the grammar's shape: one or more letters, then
hyphen-separated alphanumeric subtags consuming the whole tag. -/
def wfLang (t : Str) : Bool :=
  (!(t.takeWhile isAsciiLetter).isEmpty) &&
    decide (subtagsMunch (t.dropWhile isAsciiLetter) = t.dropWhile isAsciiLetter)

/-- Printability of a literal extra. -/
def wfExtra : Extra → Bool
  | Extra.NoneE => true
  | Extra.LangE t => wfLang t
  | Extra.TypeE t => wfIRI t

/-- Printability of an object. -/
def wfObject : Object → Bool
  | Object.IRI s => wfIRI s
  | Object.Blank s => wfBlank s
  | Object.Literal v e => v.all (fun c => !(c = '"')) && wfExtra e

/-- Printability of a subject. -/
def wfSubject : Subject → Bool
  | Subject.IRI s => wfIRI s
  | Subject.Blank s => wfBlank s

/-- A statement whose canonical text is inside the line grammar. -/
def wfStatement (st : Statement) : Bool :=
  wfSubject st.subject && wfIRI st.predicate && wfObject st.object

/-- Trailing content that cannot extend a match: empty, or starting with
whitespace. -/
def wsHead (t : List Char) : Prop :=
  ∀ c, t.head? = some c → isWS c = true

/-- Effect of one run of the interrupt handler closure. -/
inductive HandlerEffect where
  | exitNow (code : Nat)
  | setFlag (value : Bool)
deriving DecidableEq, Repr

/-- src/main.rs, the `ctrlc::set_handler` closure: reads the shared flag
`r`; when the flag still holds `true` it terminates the process with exit
status 1, otherwise it stores `false` into the flag. -/
def ctrlcHandler (running : Bool) : HandlerEffect :=
  if running then HandlerEffect.exitNow 1 else HandlerEffect.setFlag false

/-- Initial value of the shared `running` flag (`AtomicBool::new(true)`). -/
def RUNNING_INIT : Bool := true

/-- Empty reference tables (a fixture for concrete runs). -/
def T0 : RefTables := RefTables.mk [] [] [] []

/-- Reference tables fixture with one accepted language tag and one label
predicate. -/
def T1 : RefTables := RefTables.mk [] [] [['e', 'n']] [['p']]

/-- A direct-property statement about entity 1 whose object is a blank
node (so it is not accepted for output, yet it is counted). -/
def stDirectBlankObj : Statement :=
  Statement.mk (Subject.IRI ("http://www.wikidata.org/entity/Q1".data))
    ("http://www.wikidata.org/prop/direct/P9".data) (Object.Blank ['b'])

/-- A statement with a blank subject (so no entity identifier). -/
def stBlankSubj : Statement :=
  Statement.mk (Subject.Blank ['z']) ['p'] (Object.IRI ['o'])

/-- A line outside the statement grammar. -/
def badLineC6 : Str := ['x']

/-- A well-formed line. -/
def goodLineC6 : Str := "<a> <b> <c>".data

/-- The six single-character escapes of `unescape` with their values. -/
def simpleEscapes : List (Char × Char) :=
  [('t', '\t'), ('b', '\x08'), ('n', '\n'), ('r', '\r'), ('f', '\x0c'), ('\\', '\\')]

/-- C1: the claim says the first interrupt sets the shared cancellation
flag for a graceful stop and only a second interrupt terminates the
process immediately with a non-zero status.  The handler closure actually
tests the flag first: with the flag still at its initial `true` the very
first interrupt exits with status 1, and the store of `false` is
reachable only after the flag is already `false`. -/
theorem c1_first_interrupt_exits :
    ctrlcHandler RUNNING_INIT = HandlerEffect.exitNow 1 ∧
      ctrlcHandler false = HandlerEffect.setFlag false :=
  And.intro rfl rfl

/-- C2: the claim says a skip count N discards exactly the first N lines.
The producer tests `total < skip` after incrementing `total`, so line N
itself is emitted: with skip 1 nothing is discarded, with skip 3 only the
first two lines are discarded. -/
theorem c2_skip_off_by_one :
    produce 1 [['a']] = [(1, [['a']])] ∧
      produce 3 [['a'], ['b'], ['c']] = [(3, [['c']])] := by
  decide

/-- Characterisation of prefix stripping. -/
theorem stripPre_eq_some_iff (p : Str) : ∀ (s r : Str),
    stripPre p s = some r ↔ s = p ++ r := by
  induction p with
  | nil => intro s r; simp [stripPre]
  | cons a ps ih =>
    intro s r
    cases s with
    | nil => simp [stripPre]
    | cons c cs =>
      by_cases h : a = c
      · subst h; simp [stripPre, ih]
      · simp only [stripPre, if_neg h, List.cons_append, List.cons.injEq]
        exact iff_of_false (by simp) (fun hf => h hf.1.symm)

/-- C10: an entity identifier exists exactly when the subject is an IRI
beginning with the exact entity IRI head (which ends in `Q`); the
identifier is the suffix after it, hence without the leading `Q`
(Q1644 yields "1644"); blank subjects and other IRIs yield none and are
excluded from counting and labeling. -/
theorem c10_entity_identifier :
    (∀ s id, entity (Subject.IRI s) = some id ↔ s = ENTITY_IRI_HEAD ++ id)
  ∧ (∀ b, entity (Subject.Blank b) = none)
  ∧ entity (Subject.IRI ("http://www.wikidata.org/entity/Q1644".data)) =
      some ("1644".data)
  ∧ (∀ (T : RefTables) (st : Statement), entity st.subject = none →
      ∀ m : Option (Str → Nat),
        countStep m st = m ∧ labelRecords T st = Except.ok []) := by
  refine ⟨?_, ?_, by decide, ?_⟩
  · intro s id; simpa [entity] using stripPre_eq_some_iff ENTITY_IRI_HEAD s id
  · intro b; rfl
  · intro T st h m
    constructor
    · simp [countStep, h]
    · simp [labelRecords, h]

/-- Witness for C10 at a concrete blank-subject statement. -/
theorem c10_witness :
    countStep none stBlankSubj = none ∧
      labelRecords T0 stBlankSubj = Except.ok [] :=
  c10_entity_identifier.2.2.2 T0 stBlankSubj (by decide) none

/-- Unescape step: end of input. -/
theorem uc_nil (f : Str) (i : Nat) : unescapeGo f [] i = Except.ok [] := by
  rw [unescapeGo.eq_def]

/-- Unescape step: a backslash ending the input. -/
theorem uc_atEnd (f : Str) (i : Nat) :
    unescapeGo f ['\\'] i = Except.error (EscErr.atEnd i f) := by
  rw [unescapeGo.eq_def]
  rfl

/-- Unescape step: an ordinary character is copied. -/
theorem uc_cons (f : Str) (i : Nat) (c : Char) (s : List Char) (h : c ≠ '\\') :
    unescapeGo f (c :: s) i = (unescapeGo f s (i + 1)).map (fun r => c :: r) := by
  rw [unescapeGo.eq_def]
  split
  · rename_i heq; exact absurd heq (by simp)
  · rename_i heq; exact absurd (List.cons.inj heq).1 h
  · rename_i c2 rest2 heq
    obtain ⟨h1, h2⟩ := List.cons.inj heq
    subst h1; subst h2; rfl

/-- Unescape step: a single-character escape. -/
theorem uc_simple (f : Str) (i : Nat) (c2 v : Char) (s : List Char)
    (h : escKind c2 = EscKind.simple v) :
    unescapeGo f ('\\' :: c2 :: s) i =
      (unescapeGo f s (i + 2)).map (fun r => v :: r) := by
  rw [unescapeGo.eq_def]
  simp [h]

/-- Unescape step: an unrecognized escape character. -/
theorem uc_bad (f : Str) (i : Nat) (c2 : Char) (s : List Char)
    (h : escKind c2 = EscKind.bad) :
    unescapeGo f ('\\' :: c2 :: s) i =
      Except.error (EscErr.badEscape c2 (i + 1) f) := by
  rw [unescapeGo.eq_def]
  simp [h]

/-- Unescape step: a `u` escape whose four characters decode. -/
theorem uc_u_ok (f : Str) (i : Nat) (cs s : List Char) (u : Nat)
    (hlen : cs.length = 4) (hr : parse_unicode cs = some u) :
    unescapeGo f ('\\' :: 'u' :: (cs ++ s)) i =
      (unescapeGo f s (i + 6)).map (fun r => Char.ofNat u :: r) := by
  have ht : (cs ++ s).take 4 = cs := by rw [← hlen]; exact List.take_left cs s
  have hd : (cs ++ s).drop 4 = s := by rw [← hlen]; exact List.drop_left cs s
  rw [unescapeGo.eq_def]
  simp [escKind, ht, hd, hr, hlen]

/-- Unescape step: a `u` escape whose four characters do not decode. -/
theorem uc_u_err (f : Str) (i : Nat) (cs s : List Char)
    (hlen : cs.length = 4) (hr : parse_unicode cs = none) :
    unescapeGo f ('\\' :: 'u' :: (cs ++ s)) i =
      Except.error (EscErr.badUnicode 'u' (i + 1) f cs) := by
  have ht : (cs ++ s).take 4 = cs := by rw [← hlen]; exact List.take_left cs s
  rw [unescapeGo.eq_def]
  simp [escKind, ht, hr]

/-- Unescape step: a `U` escape whose eight characters decode. -/
theorem uc_U_ok (f : Str) (i : Nat) (cs s : List Char) (u : Nat)
    (hlen : cs.length = 8) (hr : parse_unicode cs = some u) :
    unescapeGo f ('\\' :: 'U' :: (cs ++ s)) i =
      (unescapeGo f s (i + 10)).map (fun r => Char.ofNat u :: r) := by
  have ht : (cs ++ s).take 8 = cs := by rw [← hlen]; exact List.take_left cs s
  have hd : (cs ++ s).drop 8 = s := by rw [← hlen]; exact List.drop_left cs s
  rw [unescapeGo.eq_def]
  simp [escKind, ht, hd, hr, hlen]

/-- Unescape step: a `U` escape whose eight characters do not decode. -/
theorem uc_U_err (f : Str) (i : Nat) (cs s : List Char)
    (hlen : cs.length = 8) (hr : parse_unicode cs = none) :
    unescapeGo f ('\\' :: 'U' :: (cs ++ s)) i =
      Except.error (EscErr.badUnicode 'U' (i + 1) f cs) := by
  have ht : (cs ++ s).take 8 = cs := by rw [← hlen]; exact List.take_left cs s
  rw [unescapeGo.eq_def]
  simp [escKind, ht, hr]

/-- Unfolding the aggregation fold into a sum. -/
theorem mergeAll_aux (rs : List (Option (Str → Nat))) : ∀ (acc : Str → Nat) (k : Str),
    (rs.foldl
      (fun acc r => match r with | none => acc | some m => fun k => acc k + m k)
      acc) k
      = acc k + (rs.map (fun r => match r with | none => 0 | some m => m k)).sum := by
  induction rs with
  | nil => intro acc k; simp
  | cons r rest ih =>
    intro acc k
    cases r with
    | none => simp [List.foldl_cons, ih]
    | some m =>
      simp only [List.foldl_cons, List.map_cons, List.sum_cons]
      rw [ih]
      exact Nat.add_assoc _ _ _

/-- The merged count of an entity is the sum of the per-worker counts. -/
theorem mergeAll_apply (rs : List (Option (Str → Nat))) (k : Str) :
    mergeAll rs k = (rs.map (fun r => match r with | none => 0 | some m => m k)).sum := by
  simpa [mergeAll] using mergeAll_aux rs (fun _ => 0) k

/-- The counting fold adds the direct-statement count of the processed
statements on top of the starting map. -/
theorem workerCounts_foldl (sts : List Statement) : ∀ (m : Str → Nat),
    sts.foldl countStep (some m) = some (fun k => m k + directCount sts k) := by
  induction sts with
  | nil =>
    intro m
    have h0 : (fun k => m k + directCount [] k) = m := by
      funext k; simp [directCount]
    rw [List.foldl_nil, h0]
  | cons st rest ih =>
    intro m
    simp only [List.foldl_cons]
    cases hE : entity st.subject with
    | none =>
      rw [show countStep (some m) st = some m from by simp [countStep, hE]]
      rw [ih m]; congr 1; funext k
      have hc : countsFor k st = false := by simp [countsFor, hE]
      simp [directCount, List.countP_cons, hc]
    | some id =>
      cases hD : direct_property st.predicate with
      | none =>
        rw [show countStep (some m) st = some m from by
          simp [countStep, hE, maybe_count_statement, hD]]
        rw [ih m]; congr 1; funext k
        have hc : countsFor k st = false := by simp [countsFor, hD]
        simp [directCount, List.countP_cons, hc]
      | some d =>
        rw [show countStep (some m) st = some (bump m id) from by
          simp [countStep, hE, maybe_count_statement, hD]]
        rw [ih (bump m id)]; congr 1; funext k
        by_cases hk : k = id
        · subst hk
          have hc : countsFor k st = true := by simp [countsFor, hE, hD]
          simp only [directCount, List.countP_cons, hc, if_true, bump, if_pos rfl]
          omega
        · have hne : ¬ id = k := fun hh => hk hh.symm
          have hc : countsFor k st = false := by simp [countsFor, hE, hne]
          simp [directCount, List.countP_cons, hc, bump, hk]

/-- With counting enabled a worker's result map holds exactly the direct
counts of its statements. -/
theorem workerCounts_true (sts : List Statement) :
    workerCounts true sts = some (fun k => directCount sts k) := by
  simpa [workerCounts] using workerCounts_foldl sts (fun _ => 0)

/-- Direct counts add over concatenation. -/
theorem directCount_append (l1 l2 : List Statement) (k : Str) :
    directCount (l1 ++ l2) k = directCount l1 k + directCount l2 k := by
  simp [directCount, List.countP_append]

/-- Merging every worker's counts over a partition gives the direct count
of the joined run. -/
theorem merged_partition (parts : List (List Statement)) (k : Str) :
    mergeAll (parts.map (fun p => workerCounts true p)) k =
      directCount parts.flatten k := by
  induction parts with
  | nil => simp [mergeAll_apply, directCount]
  | cons p ps ih =>
    rw [mergeAll_apply, List.map_cons, List.map_cons, List.sum_cons,
      ← mergeAll_apply, ih, workerCounts_true, List.flatten_cons, directCount_append]

/-- C3 (counterexample): a direct-property statement about entity 1 whose
object is a blank node is rejected by accept-for-output, yet the merged
count for entity 1 is 1 while the claim's accepted-only count is 0. -/
theorem c3_counterexample :
    mergeAll [workerCounts true [stDirectBlankObj]] ['1'] = 1 ∧
      acceptedDirectCount T0 [stDirectBlankObj] ['1'] = 0 ∧
      is_acceptable T0 stDirectBlankObj = false := by
  decide

/-- C3 (amended): with counting enabled, the merged count for an entity
equals the number, over the whole run, of direct-property statements whose
subject resolves to that entity — with no accept-for-output condition —
independent of how statements were partitioned across workers and of
processing order. -/
theorem c3_amended_counts :
    ∀ (parts : List (List Statement)) (all : List Statement) (k : Str),
      parts.flatten.Perm all →
      mergeAll (parts.map (fun p => workerCounts true p)) k = directCount all k := by
  intro parts all k hp
  rw [merged_partition]
  simp only [directCount]
  exact List.Perm.countP_eq _ hp

/-- Witness for C3 at a concrete two-worker partition. -/
theorem c3_witness :
    mergeAll ([[stDirectBlankObj], []].map (fun p => workerCounts true p)) ['1'] =
      directCount [stDirectBlankObj] ['1'] :=
  c3_amended_counts [[stDirectBlankObj], []] [stDirectBlankObj] ['1'] (by simp)

/-- C8: merging per-worker results by per-entity summation is insensitive
to the order of the result records, and any two partitions of the same
statements (up to permutation) across any number of workers merge to the
same counts. -/
theorem c8_merge_commutative :
    (∀ (rs1 rs2 : List (Option (Str → Nat))), rs1.Perm rs2 →
        ∀ k, mergeAll rs1 k = mergeAll rs2 k)
  ∧ (∀ (parts1 parts2 : List (List Statement)), parts1.flatten.Perm parts2.flatten →
        ∀ k, mergeAll (parts1.map (fun p => workerCounts true p)) k =
          mergeAll (parts2.map (fun p => workerCounts true p)) k) := by
  constructor
  · intro rs1 rs2 hp k
    rw [mergeAll_apply, mergeAll_apply]
    exact List.Perm.sum_eq (hp.map _)
  · intro p1 p2 hp k
    rw [merged_partition, merged_partition]
    simp only [directCount]
    exact List.Perm.countP_eq _ hp

/-- Witness for C8 at concrete result lists. -/
theorem c8_witness :
    mergeAll [none, workerCounts true [stDirectBlankObj]] ['1'] =
      mergeAll [workerCounts true [stDirectBlankObj], none] ['1'] :=
  c8_merge_commutative.1 _ _ (List.Perm.swap _ _ _) ['1']

/-- C4: accept-for-output rejects a parsed statement exactly when the
predicate is in the excluded predicates or excluded identifier predicates,
or the subject is a blank node, or the subject is an IRI beginning with
the fixed ignored entity-data URL head, or the object is a blank node, or
the object is a literal with a language tag outside the accepted language
tags, or the object is a literal of the geo-shape datatype whose value
begins with an opening angle bracket; an accepted statement's original
line is written verbatim to the worker's statement shard. -/
theorem c4_accept_for_output :
    ∀ (T : RefTables) (st : Statement) (line : Str),
      (is_acceptable T st = false ↔
        (T.properties.contains st.predicate = true ∨
         T.identifier_properties.contains st.predicate = true ∨
         (∃ b, st.subject = Subject.Blank b) ∨
         (∃ iri, st.subject = Subject.IRI iri ∧
            startsWithL IGNORED_ENTITY_DATA_HEAD iri = true) ∨
         (∃ b, st.object = Object.Blank b) ∨
         (∃ v lg, st.object = Object.Literal v (Extra.LangE lg) ∧
            T.languages.contains lg = false) ∨
         (∃ v, st.object = Object.Literal v (Extra.TypeE GEO_SHAPE_DT) ∧
            startsWithL ['<'] v = true)))
      ∧ (is_acceptable T st = true → maybe_write_line T line st = [line])
      ∧ (is_acceptable T st = false → maybe_write_line T line st = []) := by
  intro T st line
  refine ⟨?_, fun h => by simp [maybe_write_line, h],
    fun h => by simp [maybe_write_line, h]⟩
  rcases st with ⟨subj, pred, obj⟩
  rcases subj with s | b <;>
    rcases obj with o | ob | ⟨v, ex⟩ <;>
      try rcases ex with _ | t | lg
  all_goals
    simp only [is_acceptable, ignored_subject] <;>
      split_ifs <;>
        simp_all [Bool.or_eq_true] <;>
          tauto

/-- Witness for C4 at a concrete accepted statement. -/
theorem c4_witness :
    maybe_write_line T0 goodLineC6 stDirectBlankObj = [] :=
  (c4_accept_for_output T0 stDirectBlankObj goodLineC6).2.2 (by decide)

/-- C9: a label record is extracted exactly when the predicate is in the
label predicates, the object is a literal with a language tag in the
accepted language tags, and the subject resolves to an entity identifier;
the emitted pair is the entity id with the literal value after unescaping,
and zero or one pair is produced per statement. -/
theorem c9_label_extraction :
    (∀ (T : RefTables) (st : Statement) (id v lg u : Str),
        entity st.subject = some id →
        st.object = Object.Literal v (Extra.LangE lg) →
        T.labels.contains st.predicate = true →
        T.languages.contains lg = true →
        unescape v = Except.ok u →
        labelRecords T st = Except.ok [(id, u)])
  ∧ (∀ (T : RefTables) (st : Statement),
        ¬ (T.labels.contains st.predicate = true ∧
            (∃ v lg, st.object = Object.Literal v (Extra.LangE lg) ∧
              T.languages.contains lg = true) ∧
            (∃ id, entity st.subject = some id)) →
        labelRecords T st = Except.ok [])
  ∧ (∀ (T : RefTables) (st : Statement) (recs : List (Str × Str)),
        labelRecords T st = Except.ok recs → recs.length ≤ 1) := by
  refine ⟨?_, ?_, ?_⟩
  · intro T st id v lg u hE hO hP hL hU
    have hPm : st.predicate ∈ T.labels := by simpa using hP
    have hLm : lg ∈ T.languages := by simpa using hL
    simp [labelRecords, hE, maybe_write_label, label, hPm, hO, hLm, hU, Except.map]
  · intro T st h
    rcases hE : entity st.subject with _ | id
    · simp [labelRecords, hE]
    · by_cases hP : T.labels.contains st.predicate = true
      · rcases hO : st.object with o | ob | ⟨v, ex⟩
        · simp [labelRecords, hE, maybe_write_label, label, hP, hO]
        · simp [labelRecords, hE, maybe_write_label, label, hP, hO]
        · rcases ex with _ | t | lg
          · simp [labelRecords, hE, maybe_write_label, label, hP, hO]
          · simp [labelRecords, hE, maybe_write_label, label, hP, hO]
          · by_cases hL : T.languages.contains lg = true
            · exact absurd ⟨hP, ⟨v, lg, hO, hL⟩, ⟨id, hE⟩⟩ h
            · have hLm : lg ∉ T.languages := by
                intro hm
                exact hL (by simpa using hm)
              simp [labelRecords, hE, maybe_write_label, label, hP, hO, hLm]
      · have hPm : st.predicate ∉ T.labels := by
          intro hm
          exact hP (by simpa using hm)
        simp [labelRecords, hE, maybe_write_label, label, hPm]
  · intro T st recs h
    rcases hE : entity st.subject with _ | id
    · simp only [labelRecords, hE] at h
      cases h
      simp
    · simp only [labelRecords, hE, maybe_write_label, if_true] at h
      rcases hl : label T st with e | o
      · rw [hl] at h; exact absurd h (by simp)
      · rcases o with _ | u
        · rw [hl] at h
          cases h
          simp
        · rw [hl] at h
          cases h
          simp

/-- Witness for C9 at a concrete label-bearing statement. -/
theorem c9_witness :
    labelRecords T1
      (Statement.mk (Subject.IRI (ENTITY_IRI_HEAD ++ ['7'])) ['p']
        (Object.Literal ['h', 'i'] (Extra.LangE ['e', 'n']))) =
      Except.ok [(['7'], ['h', 'i'])] :=
  c9_label_extraction.1 T1
    (Statement.mk (Subject.IRI (ENTITY_IRI_HEAD ++ ['7'])) ['p']
      (Object.Literal ['h', 'i'] (Extra.LangE ['e', 'n'])))
    ['7'] ['h', 'i'] ['e', 'n'] ['h', 'i']
    (by decide) rfl (by decide) (by decide)
    (by simp [unescape, uc_cons, uc_nil, Except.map])

/-- A list of length four is four explicit elements. -/
theorem list_len4 {α : Type} (cs : List α) (h : cs.length = 4) :
    ∃ a b c d, cs = [a, b, c, d] := by
  rcases cs with _ | ⟨a, cs⟩; · simp at h
  rcases cs with _ | ⟨b, cs⟩; · simp at h
  rcases cs with _ | ⟨c, cs⟩; · simp at h
  rcases cs with _ | ⟨d, cs⟩; · simp at h
  rcases cs with _ | ⟨e, cs⟩
  · exact ⟨a, b, c, d, rfl⟩
  · simp at h

/-- A list of length eight is eight explicit elements. -/
theorem list_len8 {α : Type} (cs : List α) (h : cs.length = 8) :
    ∃ a b c d e f g k, cs = [a, b, c, d, e, f, g, k] := by
  rcases cs with _ | ⟨a, cs⟩; · simp at h
  rcases cs with _ | ⟨b, cs⟩; · simp at h
  rcases cs with _ | ⟨c, cs⟩; · simp at h
  rcases cs with _ | ⟨d, cs⟩; · simp at h
  rcases cs with _ | ⟨e, cs⟩; · simp at h
  rcases cs with _ | ⟨f, cs⟩; · simp at h
  rcases cs with _ | ⟨g, cs⟩; · simp at h
  rcases cs with _ | ⟨k, cs⟩; · simp at h
  rcases cs with _ | ⟨l, cs⟩
  · exact ⟨a, b, c, d, e, f, g, k, rfl⟩
  · simp at h

/-- C5 (amended): unescape processes the input left to right; a character
other than a backslash is copied; the six single-character escapes map to
their control characters; a backslash ending the input is a fatal error
carrying the offending index and the input; `u`/`U` take the following
4/8 characters and parse them as hexadecimal, where the parser also
accepts an optional leading plus sign (`from_str_radix16`); a sequence
that does not parse, or denotes an invalid code point, is a fatal error
carrying the offending index and input; any other character after a
backslash is a fatal error. -/
theorem c5_amended_unescape :
    (∀ s : Str, unescape s = unescapeGo s s 0)
  ∧ (∀ (f : Str) (i : Nat), unescapeGo f [] i = Except.ok [])
  ∧ (∀ (f : Str) (i : Nat) (c : Char) (s : List Char), c ≠ '\\' →
      unescapeGo f (c :: s) i = (unescapeGo f s (i + 1)).map (fun r => c :: r))
  ∧ (∀ (f : Str) (i : Nat),
      unescapeGo f ['\\'] i = Except.error (EscErr.atEnd i f))
  ∧ (∀ p ∈ simpleEscapes, ∀ (f : Str) (i : Nat) (s : List Char),
      unescapeGo f ('\\' :: p.1 :: s) i =
        (unescapeGo f s (i + 2)).map (fun r => p.2 :: r))
  ∧ (∀ (f : Str) (i : Nat) (cs s : List Char) (u : Nat), cs.length = 4 →
      from_str_radix16 cs = some u → isScalar u = true →
      unescapeGo f ('\\' :: 'u' :: (cs ++ s)) i =
        (unescapeGo f s (i + 6)).map (fun r => Char.ofNat u :: r))
  ∧ (∀ (f : Str) (i : Nat) (cs s : List Char), cs.length = 4 →
      from_str_radix16 cs = none →
      unescapeGo f ('\\' :: 'u' :: (cs ++ s)) i =
        Except.error (EscErr.badUnicode 'u' (i + 1) f cs))
  ∧ (∀ (f : Str) (i : Nat) (cs s : List Char) (u : Nat), cs.length = 4 →
      from_str_radix16 cs = some u → isScalar u = false →
      unescapeGo f ('\\' :: 'u' :: (cs ++ s)) i =
        Except.error (EscErr.badUnicode 'u' (i + 1) f cs))
  ∧ (∀ (f : Str) (i : Nat) (cs s : List Char) (u : Nat), cs.length = 8 →
      from_str_radix16 cs = some u → isScalar u = true →
      unescapeGo f ('\\' :: 'U' :: (cs ++ s)) i =
        (unescapeGo f s (i + 10)).map (fun r => Char.ofNat u :: r))
  ∧ (∀ (f : Str) (i : Nat) (cs s : List Char), cs.length = 8 →
      from_str_radix16 cs = none →
      unescapeGo f ('\\' :: 'U' :: (cs ++ s)) i =
        Except.error (EscErr.badUnicode 'U' (i + 1) f cs))
  ∧ (∀ (f : Str) (i : Nat) (cs s : List Char) (u : Nat), cs.length = 8 →
      from_str_radix16 cs = some u → isScalar u = false →
      unescapeGo f ('\\' :: 'U' :: (cs ++ s)) i =
        Except.error (EscErr.badUnicode 'U' (i + 1) f cs))
  ∧ (∀ (f : Str) (i : Nat) (c2 : Char) (s : List Char),
      c2 ∉ ['t', 'b', 'n', 'r', 'f', '\\', 'u', 'U'] →
      unescapeGo f ('\\' :: c2 :: s) i =
        Except.error (EscErr.badEscape c2 (i + 1) f)) := by
  refine ⟨fun s => rfl, uc_nil, uc_cons, uc_atEnd, ?_, ?_, ?_, ?_, ?_, ?_, ?_, ?_⟩
  · intro p hp f i s
    simp only [simpleEscapes, List.mem_cons, List.not_mem_nil, or_false] at hp
    rcases hp with rfl | rfl | rfl | rfl | rfl | rfl <;>
      exact uc_simple f i _ _ s (by decide)
  · intro f i cs s u hlen hr hs
    exact uc_u_ok f i cs s u hlen (by simp [parse_unicode, hr, hs])
  · intro f i cs s hlen hr
    exact uc_u_err f i cs s hlen (by simp [parse_unicode, hr])
  · intro f i cs s u hlen hr hs
    exact uc_u_err f i cs s hlen (by simp [parse_unicode, hr, hs])
  · intro f i cs s u hlen hr hs
    exact uc_U_ok f i cs s u hlen (by simp [parse_unicode, hr, hs])
  · intro f i cs s hlen hr
    exact uc_U_err f i cs s hlen (by simp [parse_unicode, hr])
  · intro f i cs s u hlen hr hs
    exact uc_U_err f i cs s hlen (by simp [parse_unicode, hr, hs])
  · intro f i c2 s h
    simp only [List.mem_cons, List.not_mem_nil, or_false, not_or] at h
    obtain ⟨h1, h2, h3, h4, h5, h6, h7, h8⟩ := h
    exact uc_bad f i c2 s (by simp [escKind, h1, h2, h3, h4, h5, h6, h7, h8])

/-- C5 (counterexample): the four characters following the `u` escape in
the input are not hexadecimal digits — the sequence starts with a plus
sign — yet unescape silently accepts the escape as code point 0x123
instead of failing. -/
theorem c5_counterexample :
    hexDigit '+' = false ∧
      (['+', '1', '2', '3'].all hexDigit) = false ∧
      unescape ['\\', 'u', '+', '1', '2', '3'] = Except.ok [Char.ofNat 291] := by
  refine ⟨by decide, by decide, ?_⟩
  have h := uc_u_ok ['\\', 'u', '+', '1', '2', '3'] 0 ['+', '1', '2', '3'] [] 291
    (by decide) (by decide)
  simpa [unescape, uc_nil] using h

/-- Witness for C5 at a concrete invalid escape. -/
theorem c5_witness :
    unescape ['\\', 'z'] = Except.error (EscErr.badEscape 'z' 1 ['\\', 'z']) := by
  rw [c5_amended_unescape.1]
  exact c5_amended_unescape.2.2.2.2.2.2.2.2.2.2.2 ['\\', 'z'] 0 'z' [] (by decide)

/-- The lines of all handed-off batches are the input past the skipped
prefix (of length skip minus one), in order. -/
theorem produceAux_join (skip : Nat) :
    ∀ (input : List Str) (total : Nat) (acc : List Str),
      ((produceAux skip total acc input).map Prod.snd).flatten =
        acc ++ input.drop (skip - 1 - total) := by
  intro input
  induction input with
  | nil =>
    intro total acc
    rcases acc with _ | ⟨a, acc⟩ <;> simp [produceAux]
  | cons line rest ih =>
    intro total acc
    simp only [produceAux]
    by_cases hskip : total + 1 < skip
    · rw [if_pos hskip, ih (total + 1) acc]
      have hstep : skip - 1 - total = (skip - 1 - (total + 1)) + 1 := by omega
      rw [hstep, List.drop_succ_cons]
    · rw [if_neg hskip]
      have hz : skip - 1 - total = 0 := by omega
      have hz2 : skip - 1 - (total + 1) = 0 := by omega
      by_cases hmod : (total + 1) % 100 = 0
      · rw [if_pos hmod]
        simp only [List.map_cons, List.flatten_cons]
        rw [ih (total + 1) []]
        simp [hz, hz2]
      · rw [if_neg hmod, ih (total + 1) (acc ++ [line])]
        simp [hz, hz2]

/-- With a skip count of at most one nothing is ever skipped. -/
theorem produceAux_skip_le_one (skip : Nat) (h : skip ≤ 1) :
    ∀ (input : List Str) (total : Nat) (acc : List Str),
      produceAux skip total acc input = produceAux 0 total acc input := by
  intro input
  induction input with
  | nil => intro total acc; rfl
  | cons line rest ih =>
    intro total acc
    simp only [produceAux]
    rw [if_neg (by omega : ¬ total + 1 < skip), if_neg (by omega : ¬ total + 1 < 0)]
    by_cases hmod : (total + 1) % 100 = 0
    · rw [if_pos hmod, if_pos hmod, ih]
    · rw [if_neg hmod, if_neg hmod, ih]

/-- Without skipping, every handed-off batch except possibly the last
holds exactly 100 lines. -/
theorem produceAux_sizes :
    ∀ (input : List Str) (total : Nat) (acc : List Str),
      acc.length = total % 100 →
      ∀ p ∈ (produceAux 0 total acc input).dropLast, p.2.length = 100 := by
  intro input
  induction input with
  | nil =>
    intro total acc hacc p hp
    rcases acc with _ | ⟨a, acc⟩ <;> simp_all [produceAux]
  | cons line rest ih =>
    intro total acc hacc p hp
    simp only [produceAux] at hp
    rw [if_neg (by omega : ¬ total + 1 < 0)] at hp
    by_cases hmod : (total + 1) % 100 = 0
    · rw [if_pos hmod] at hp
      rcases hB : produceAux 0 (total + 1) [] rest with _ | ⟨b, bs⟩
      · rw [hB] at hp; simp at hp
      · rw [hB] at hp
        simp only [List.dropLast, List.mem_cons] at hp
        rcases hp with rfl | hp
        · simp only [List.length_append, List.length_cons, List.length_nil, hacc]
          omega
        · refine ih (total + 1) [] (by simp [hmod]) p ?_
          rw [hB]
          simpa [List.dropLast] using hp
    · rw [if_neg hmod] at hp
      refine ih (total + 1) (acc ++ [line]) ?_ p hp
      simp only [List.length_append, List.length_cons, List.length_nil, hacc]
      omega

/-- Each batch tag is the cumulative count of lines read from the stream
up to and including the batch's last line: the tags are the running sums
of the batch lengths on top of the skipped prefix. -/
theorem produceAux_tags (skip : Nat) :
    ∀ (input : List Str) (total : Nat) (acc : List Str),
      acc.length ≤ total →
      (total < skip - 1 → acc = []) →
      (produceAux skip total acc input).map Prod.fst =
        scanAdd (max total (skip - 1) - acc.length)
          ((produceAux skip total acc input).map (fun p => p.2.length)) := by
  intro input
  induction input with
  | nil =>
    intro total acc hle hbs
    rcases acc with _ | ⟨a, acc⟩
    · simp [produceAux, scanAdd]
    · have htot : ¬ (total < skip - 1) := fun hh => by simpa using hbs hh
      simp only [produceAux]
      rw [if_neg (by simp)]
      simp only [List.map_cons, List.map_nil, scanAdd]
      have hmax : max total (skip - 1) = total := max_eq_left (by omega)
      rw [hmax]
      congr 1
      simp only [List.length_cons] at hle ⊢
      omega
  | cons line rest ih =>
    intro total acc hle hbs
    simp only [produceAux]
    by_cases hskip : total + 1 < skip
    · rw [if_pos hskip]
      have hacc : acc = [] := hbs (by omega)
      subst hacc
      rw [ih (total + 1) [] (by simp) (fun _ => rfl)]
      have e1 : max (total + 1) (skip - 1) = skip - 1 := max_eq_right (by omega)
      have e2 : max total (skip - 1) = skip - 1 := max_eq_right (by omega)
      rw [e1, e2]
    · rw [if_neg hskip]
      have htot : max total (skip - 1) = total := max_eq_left (by omega)
      by_cases hmod : (total + 1) % 100 = 0
      · rw [if_pos hmod]
        simp only [List.map_cons]
        rw [ih (total + 1) [] (by simp) (fun hh => rfl)]
        have e1 : max (total + 1) (skip - 1) = total + 1 := max_eq_left (by omega)
        rw [e1, htot]
        simp only [scanAdd, List.length_nil, Nat.sub_zero]
        congr 1
        · simp only [List.length_append, List.length_cons, List.length_nil]
          omega
        · congr 1
          simp only [List.length_append, List.length_cons, List.length_nil]
          omega
      · rw [if_neg hmod]
        rw [ih (total + 1) (acc ++ [line])
          (by simp only [List.length_append, List.length_cons, List.length_nil]; omega)
          (fun hh => absurd hh (by omega))]
        have e1 : max (total + 1) (skip - 1) = total + 1 := max_eq_left (by omega)
        rw [e1, htot]
        congr 1
        simp only [List.length_append, List.length_cons, List.length_nil]
        omega

/-- C7 (counterexample): with skip 2 and 150 identical lines the first
handed-off batch holds 99 lines although it is not the last batch —
hand-off happens when the cumulative line count reaches a multiple of
100, not when the batch itself reaches 100 lines. -/
theorem c7_counterexample :
    (produce 2 (List.replicate 150 ['a'])).map (fun p => (p.1, p.2.length)) =
        [(100, 99), (150, 50)] ∧
      ¬ (∀ p ∈ (produce 2 (List.replicate 150 ['a'])).dropLast,
          p.2.length = 100) := by
  decide

/-- C7 (amended): the producer appends every line past the skipped prefix
to the current batch and hands the batch off when the cumulative line
count reaches a multiple of 100, handing off a non-empty partial batch at
end of input; the joined batches are the input past the skipped prefix in
order; each batch's tag is the cumulative count of lines read up to and
including its last line; and when the skip count is at most 1 every
handed-off batch except possibly the last holds exactly 100 lines. -/
theorem c7_amended_batches :
    ∀ (skip : Nat) (input : List Str),
      ((produce skip input).map Prod.snd).flatten = input.drop (skip - 1)
    ∧ (produce skip input).map Prod.fst =
        scanAdd (skip - 1) ((produce skip input).map (fun p => p.2.length))
    ∧ (skip ≤ 1 → ∀ p ∈ (produce skip input).dropLast, p.2.length = 100) := by
  intro skip input
  refine ⟨?_, ?_, ?_⟩
  · simpa [produce] using produceAux_join skip input 0 []
  · have h := produceAux_tags skip input 0 [] (Nat.le_refl 0) (fun _ => rfl)
    simpa [produce] using h
  · intro hs p hp
    rw [produce, produceAux_skip_le_one skip hs input 0 []] at hp
    exact produceAux_sizes input 0 [] (by simp) p hp

/-- Witness for C7 at a concrete 150-line input without skipping. -/
theorem c7_witness :
    (0 : Nat) ≤ 1 ∧ (List.replicate 100 (['a'] : Str)).length = 100 :=
  And.intro (by decide)
    ((c7_amended_batches 0 (List.replicate 150 ['a'])).2.2 (by decide)
      (100, List.replicate 100 ['a']) (by decide))

/-- Whitespace characters are one of the six ASCII whitespace characters. -/
theorem ws_enum (c : Char) (h : isWS c = true) :
    c = ' ' ∨ c = '\t' ∨ c = '\n' ∨ c = '\r' ∨ c = '\x0b' ∨ c = '\x0c' := by
  simp only [isWS, Bool.or_eq_true, decide_eq_true_eq] at h
  tauto

/-- A whitespace character is none of the grammar's significant
characters. -/
theorem ws_facts (c : Char) (h : isWS c = true) :
    isAsciiAlnum c = false ∧ isAsciiLetter c = false ∧ ¬ c = '<' ∧ ¬ c = '_' ∧
      ¬ c = '"' ∧ ¬ c = '@' ∧ ¬ c = '^' ∧ ¬ c = '-' := by
  rcases ws_enum c h with rfl | rfl | rfl | rfl | rfl | rfl <;> exact (by decide)

/-- Empty trailing content. -/
theorem wsHead_nil : wsHead [] := by
  intro c hc
  simp at hc

/-- Trailing content headed by a whitespace character. -/
theorem wsHead_cons {c : Char} {t : List Char} (h : isWS c = true) :
    wsHead (c :: t) := by
  intro c2 hc2
  rw [List.head?_cons] at hc2
  rw [← Option.some.inj hc2]
  exact h

/-- Splitting `takeWhile`/`dropWhile` over an append at a boundary where
the predicate flips. -/
theorem takeWhile_split (p : Char → Bool) :
    ∀ (a b : List Char), (∀ c ∈ a, p c = true) →
      (∀ c, b.head? = some c → p c = false) →
      (a ++ b).takeWhile p = a ∧ (a ++ b).dropWhile p = b := by
  intro a
  induction a with
  | nil =>
    intro b _ hb
    cases b with
    | nil => simp
    | cons c t => simp [List.takeWhile_cons, List.dropWhile_cons, hb c rfl]
  | cons x a' ih =>
    intro b ha hb
    have hx : p x = true := ha x (by simp)
    have hih := ih b (fun c hc => ha c (by simp [hc])) hb
    simp [List.takeWhile_cons, List.dropWhile_cons, hx, hih.1, hih.2]

/-- The delimited-segment consumer splits an append at the first
delimiter. -/
theorem takeUntilC_append (d : Char) :
    ∀ (a b : List Char), (∀ c ∈ a, ¬ c = d) →
      takeUntilC d (a ++ d :: b) = some (a, b) := by
  intro a
  induction a with
  | nil => intro b _; simp [takeUntilC]
  | cons x a' ih =>
    intro b ha
    have hx : ¬ x = d := ha x (by simp)
    simp [takeUntilC, hx, ih b (fun c hc => ha c (by simp [hc]))]

/-- An IRI body contains no closing bracket. -/
theorem all_ne_of_wfIRI (s : Str) (h : wfIRI s = true) : ∀ c ∈ s, ¬ c = '>' := by
  intro c hc
  simpa using List.all_eq_true.mp h c hc

/-- A blank-node name contains no whitespace. -/
theorem all_nonws_of_wfBlank (s : Str) (h : wfBlank s = true) :
    s ≠ [] ∧ ∀ c ∈ s, isWS c = false := by
  simp only [wfBlank, Bool.and_eq_true] at h
  constructor
  · intro hnil; subst hnil; simp at h
  · intro c hc
    simpa using List.all_eq_true.mp h.2 c hc

/-- The head of the dropped part of a while-split fails the predicate. -/
theorem head_dropWhile_false (p : Char → Bool) :
    ∀ (l : List Char) (c : Char), (l.dropWhile p).head? = some c → p c = false := by
  intro l
  induction l with
  | nil => intro c hc; simp at hc
  | cons x xs ih =>
    intro c hc
    by_cases hx : p x = true
    · rw [List.dropWhile_cons, if_pos hx] at hc
      exact ih c hc
    · rw [List.dropWhile_cons, if_neg hx] at hc
      rw [List.head?_cons] at hc
      rw [← Option.some.inj hc]
      exact Bool.eq_false_iff.mpr hx

/-- The subtag matcher yields nothing on whitespace-headed input. -/
theorem subtagsMunch_ws (t : List Char) (ht : wsHead t) : subtagsMunch t = [] := by
  cases t with
  | nil => rw [subtagsMunch.eq_def]
  | cons c t2 =>
    obtain ⟨hal, _, _, _, _, _, _, hdash⟩ := ws_facts c (ht c rfl)
    rw [subtagsMunch.eq_def]
    simp [hdash]

/-- A nonempty fixed point of the subtag matcher starts with a hyphen. -/
theorem subtagsMunch_fix_head (R : List Char) (hR : subtagsMunch R = R) :
    R = [] ∨ ∃ rest, R = '-' :: rest := by
  rcases R with _ | ⟨dash, rest⟩
  · exact Or.inl rfl
  · by_cases hd : dash = '-'
    · exact Or.inr ⟨rest, by rw [hd]⟩
    · rw [subtagsMunch.eq_def] at hR
      simp [hd] at hR

/-- Dropping the length of the while-taken part is dropping while. -/
theorem drop_takeWhile_length (p : Char → Bool) :
    ∀ l : List Char, l.drop (l.takeWhile p).length = l.dropWhile p := by
  intro l
  induction l with
  | nil => rfl
  | cons x xs ih =>
    by_cases hx : p x = true
    · simp [List.takeWhile_cons, List.dropWhile_cons, hx, ih]
    · simp [List.takeWhile_cons, List.dropWhile_cons, hx]

/-- Every element of the while-taken part satisfies the predicate. -/
theorem mem_takeWhile_pred (p : Char → Bool) :
    ∀ (l : List Char) (c : Char), c ∈ l.takeWhile p → p c = true := by
  intro l
  induction l with
  | nil => intro c hc; simp at hc
  | cons x xs ih =>
    intro c hc
    by_cases hx : p x = true
    · rw [List.takeWhile_cons, if_pos hx] at hc
      rcases List.mem_cons.mp hc with rfl | hc2
      · exact hx
      · exact ih c hc2
    · rw [List.takeWhile_cons, if_neg hx] at hc
      simp at hc

/-- A fully-consumed subtag run is unchanged by whitespace-headed
trailing content. -/
theorem subtagsMunch_extend (t : List Char) (ht : wsHead t) :
    ∀ (n : Nat) (R : List Char), R.length ≤ n → subtagsMunch R = R →
      subtagsMunch (R ++ t) = R := by
  intro n
  induction n with
  | zero =>
    intro R hlen hR
    have hnil : R = [] := List.eq_nil_of_length_eq_zero (Nat.le_zero.mp hlen)
    subst hnil
    exact subtagsMunch_ws t ht
  | succ n ih =>
    intro R hlen hR
    cases R with
    | nil => exact subtagsMunch_ws t ht
    | cons dash rest =>
      simp only [List.length_cons] at hlen
      by_cases hd : dash = '-'
      · subst hd
        rw [subtagsMunch.eq_def] at hR
        simp only [if_pos rfl] at hR
        by_cases hsub : (rest.takeWhile isAsciiAlnum).isEmpty = true
        · rw [if_pos hsub] at hR
          exact absurd hR (by simp)
        · rw [if_neg hsub] at hR
          have hrest : rest.takeWhile isAsciiAlnum ++
              subtagsMunch (rest.drop (rest.takeWhile isAsciiAlnum).length) = rest :=
            (List.cons.inj hR).2
          rw [drop_takeWhile_length] at hrest
          have hsplit : rest.takeWhile isAsciiAlnum ++ rest.dropWhile isAsciiAlnum
              = rest := List.takeWhile_append_dropWhile isAsciiAlnum rest
          have hfix : subtagsMunch (rest.dropWhile isAsciiAlnum) =
              rest.dropWhile isAsciiAlnum := by
            have := hrest.trans hsplit.symm
            exact List.append_cancel_left this
          have hlen2 : (rest.dropWhile isAsciiAlnum).length ≤ n := by
            have h1 := congrArg List.length hsplit
            simp only [List.length_append] at h1
            omega
          have hmunch := ih (rest.dropWhile isAsciiAlnum) hlen2 hfix
          -- now compute on the extended input
          have hws : ∀ c, (rest.dropWhile isAsciiAlnum ++ t).head? = some c →
              isAsciiAlnum c = false := by
            intro c hc
            cases hdw : rest.dropWhile isAsciiAlnum with
            | nil =>
              rw [hdw] at hc
              exact (ws_facts c (ht c hc)).1
            | cons y ys =>
              rw [hdw] at hc
              rw [List.cons_append, List.head?_cons] at hc
              rw [← Option.some.inj hc]
              have := head_dropWhile_false isAsciiAlnum rest y
              rw [hdw] at this
              exact this (by rw [List.head?_cons])
          have htw := takeWhile_split isAsciiAlnum (rest.takeWhile isAsciiAlnum)
            (rest.dropWhile isAsciiAlnum ++ t)
            (fun c hc => mem_takeWhile_pred isAsciiAlnum rest c hc) hws
          have hresteq : rest ++ t = rest.takeWhile isAsciiAlnum ++
              (rest.dropWhile isAsciiAlnum ++ t) := by
            rw [← List.append_assoc, hsplit]
          rw [List.cons_append, subtagsMunch.eq_def]
          simp only [if_pos rfl]
          rw [hresteq, htw.1]
          rw [if_neg hsub]
          rw [List.drop_left, hmunch, hsplit]
          simp
      · rw [subtagsMunch.eq_def] at hR
        simp [hd] at hR

/-- The optional-extra parser reconstructs a printed extra, ignoring
whitespace-headed trailing content. -/
theorem parseExtra_render (e : Extra) (t : List Char) (he : wfExtra e = true)
    (ht : wsHead t) : parseExtra (renderExtra e ++ t) = e := by
  cases e with
  | NoneE =>
    cases t with
    | nil => rfl
    | cons c t2 =>
      obtain ⟨hal, hlet, hlt, hus, hq, hat, hcaret, hdash⟩ := ws_facts c (ht c rfl)
      show parseExtra (c :: t2) = Extra.NoneE
      simp [parseExtra, tryTypeExtra, hat, hcaret]
  | TypeE s =>
    have hs : ∀ c ∈ s, ¬ c = '>' := all_ne_of_wfIRI s (by simpa [wfExtra] using he)
    have hnorm : renderExtra (Extra.TypeE s) ++ t = '^' :: '^' :: '<' :: (s ++ '>' :: t) := by
      simp [renderExtra]
    rw [hnorm]
    simp [parseExtra, tryTypeExtra, takeUntilC_append '>' s t hs]
  | LangE tag =>
    simp only [wfExtra, wfLang, Bool.and_eq_true, Bool.not_eq_true',
      decide_eq_true_eq] at he
    obtain ⟨hne, hfix⟩ := he
    have hsplit : tag.takeWhile isAsciiLetter ++ tag.dropWhile isAsciiLetter = tag :=
      List.takeWhile_append_dropWhile isAsciiLetter tag
    have hws2 : ∀ c, (tag.dropWhile isAsciiLetter ++ t).head? = some c →
        isAsciiLetter c = false := by
      intro c hc
      rcases subtagsMunch_fix_head _ hfix with hnil | ⟨rest, hcons⟩
      · rw [hnil] at hc
        exact (ws_facts c (ht c hc)).2.1
      · rw [hcons, List.cons_append, List.head?_cons] at hc
        rw [← Option.some.inj hc]
        decide
    have htw := takeWhile_split isAsciiLetter (tag.takeWhile isAsciiLetter)
      (tag.dropWhile isAsciiLetter ++ t)
      (fun c hc => mem_takeWhile_pred isAsciiLetter tag c hc) hws2
    have htageq : tag ++ t = tag.takeWhile isAsciiLetter ++
        (tag.dropWhile isAsciiLetter ++ t) := by
      rw [← List.append_assoc, hsplit]
    have hnorm : renderExtra (Extra.LangE tag) ++ t = '@' :: (tag ++ t) := by
      simp [renderExtra]
    rw [hnorm]
    simp only [parseExtra]
    rw [htageq, htw.1, htw.2]
    rw [if_neg (by simp [hne])]
    rw [subtagsMunch_extend t ht (tag.dropWhile isAsciiLetter).length _
      (Nat.le_refl _) hfix]
    rw [hsplit]

/-- The object parser reconstructs a printed object, ignoring
whitespace-headed trailing content. -/
theorem parseObject_render (ob : Object) (t : List Char) (hob : wfObject ob = true)
    (ht : wsHead t) : parseObject (renderObject ob ++ t) = some ob := by
  cases ob with
  | IRI s =>
    have hs : ∀ c ∈ s, ¬ c = '>' := all_ne_of_wfIRI s (by simpa [wfObject] using hob)
    have hnorm : renderObject (Object.IRI s) ++ t = '<' :: (s ++ '>' :: t) := by
      simp [renderObject]
    rw [hnorm]
    have hdrop : ('<' :: (s ++ '>' :: t)).dropWhile isWS = '<' :: (s ++ '>' :: t) := by
      rw [List.dropWhile_cons, if_neg (by decide)]
    simp [parseObject, hdrop, takeUntilC_append '>' s t hs]
  | Blank s =>
    obtain ⟨hne, hnws⟩ := all_nonws_of_wfBlank s (by simpa [wfObject] using hob)
    have hnorm : renderObject (Object.Blank s) ++ t = '_' :: ':' :: (s ++ t) := by
      simp [renderObject]
    rw [hnorm]
    have hdrop : ('_' :: ':' :: (s ++ t)).dropWhile isWS = '_' :: ':' :: (s ++ t) := by
      rw [List.dropWhile_cons, if_neg (by decide)]
    have htw := takeWhile_split (fun c => !(isWS c)) s t
      (fun c hc => by simp [hnws c hc]) (fun c hc => by simp [ht c hc])
    simp [parseObject, hdrop, htw.1, List.isEmpty_iff, hne]
  | Literal v e =>
    simp only [wfObject, Bool.and_eq_true] at hob
    have hv : ∀ c ∈ v, ¬ c = '"' := by
      intro c hc
      simpa using List.all_eq_true.mp hob.1 c hc
    have hnorm : renderObject (Object.Literal v e) ++ t =
        '"' :: (v ++ '"' :: (renderExtra e ++ t)) := by
      simp [renderObject]
    rw [hnorm]
    have hdrop : ('"' :: (v ++ '"' :: (renderExtra e ++ t))).dropWhile isWS =
        '"' :: (v ++ '"' :: (renderExtra e ++ t)) := by
      rw [List.dropWhile_cons, if_neg (by decide)]
    simp [parseObject, hdrop, takeUntilC_append '"' v _ hv,
      parseExtra_render e t hob.2 ht]

/-- The object parser skips a leading whitespace character. -/
theorem parseObject_cons_ws (c : Char) (l : List Char) (h : isWS c = true) :
    parseObject (c :: l) = parseObject l := by
  simp [parseObject, List.dropWhile_cons, h]

/-- The predicate-object parser reconstructs a printed predicate and
object, ignoring whitespace-headed trailing content. -/
theorem parsePredObj_render (subj : Subject) (pred : Str) (ob : Object)
    (t : List Char) (hp : wfIRI pred = true) (hob : wfObject ob = true)
    (ht : wsHead t) :
    parsePredObj subj (' ' :: '<' :: (pred ++ '>' :: ' ' :: (renderObject ob ++ t)))
      = some (Statement.mk subj pred ob) := by
  have hpred : ∀ c ∈ pred, ¬ c = '>' := all_ne_of_wfIRI pred hp
  have hdrop : ((' ' :: '<' :: (pred ++ '>' :: ' ' :: (renderObject ob ++ t))).dropWhile
      isWS) = '<' :: (pred ++ '>' :: ' ' :: (renderObject ob ++ t)) := by
    rw [List.dropWhile_cons, if_pos (by decide), List.dropWhile_cons,
      if_neg (by decide)]
  have hto := takeUntilC_append '>' pred (' ' :: (renderObject ob ++ t)) hpred
  simp [parsePredObj, hdrop, hto, parseObject_cons_ws ' ' _ (by decide),
    parseObject_render ob t hob ht]

/-- The first backtracking candidate for a blank node is the whole
non-whitespace run. -/
theorem blankSplits_cons (s : List Char) (r0 : List Char) (h : s ≠ []) :
    ∃ tail, blankSplits s r0 = (s, r0) :: tail := by
  rcases s with _ | ⟨c, s2⟩
  · exact absurd rfl h
  · refine ⟨List.map ((fun i => (List.take (s2.length + 1 - i) (c :: s2),
      List.drop (s2.length + 1 - i) (c :: s2) ++ r0)) ∘ Nat.succ)
      (List.range s2.length), ?_⟩
    simp [blankSplits, List.range_succ_eq_map, List.take_succ_cons,
      List.take_length, List.drop_succ_cons, List.drop_length]

/-- The statement parser reconstructs any printable statement from its
canonical text, ignoring whitespace-headed trailing content. -/
theorem parseStatement_render (st : Statement) (t : List Char)
    (h : wfStatement st = true) (ht : wsHead t) :
    parseStatement (render st ++ t) = some st := by
  obtain ⟨subj, pred, ob⟩ := st
  simp only [wfStatement, Bool.and_eq_true] at h
  obtain ⟨⟨hsub, hpred⟩, hob⟩ := h
  cases subj with
  | IRI s =>
    have hs : ∀ c ∈ s, ¬ c = '>' := all_ne_of_wfIRI s hsub
    have hnorm : render (Statement.mk (Subject.IRI s) pred ob) ++ t =
        '<' :: (s ++ '>' ::
          (' ' :: '<' :: (pred ++ '>' :: ' ' :: (renderObject ob ++ t)))) := by
      simp [render, renderSubject]
    rw [hnorm]
    have hdrop : (('<' :: (s ++ '>' ::
        (' ' :: '<' :: (pred ++ '>' :: ' ' :: (renderObject ob ++ t))))).dropWhile
          isWS) = '<' :: (s ++ '>' ::
        (' ' :: '<' :: (pred ++ '>' :: ' ' :: (renderObject ob ++ t)))) := by
      rw [List.dropWhile_cons, if_neg (by decide)]
    simp [parseStatement, hdrop, takeUntilC_append '>' s _ hs,
      parsePredObj_render (Subject.IRI s) pred ob t hpred hob ht]
  | Blank s =>
    obtain ⟨hne, hnws⟩ := all_nonws_of_wfBlank s hsub
    have hnorm : render (Statement.mk (Subject.Blank s) pred ob) ++ t =
        '_' :: ':' ::
          (s ++ (' ' :: '<' :: (pred ++ '>' :: ' ' :: (renderObject ob ++ t)))) := by
      simp [render, renderSubject]
    rw [hnorm]
    have hdrop : (('_' :: ':' ::
        (s ++ (' ' :: '<' :: (pred ++ '>' :: ' ' :: (renderObject ob ++ t))))).dropWhile
          isWS) = '_' :: ':' ::
        (s ++ (' ' :: '<' :: (pred ++ '>' :: ' ' :: (renderObject ob ++ t)))) := by
      rw [List.dropWhile_cons, if_neg (by decide)]
    have htw := takeWhile_split (fun c => !(isWS c)) s
      (' ' :: '<' :: (pred ++ '>' :: ' ' :: (renderObject ob ++ t)))
      (fun c hc => by simp [hnws c hc])
      (fun c hc => by
        rw [List.head?_cons] at hc
        rw [← Option.some.inj hc]
        decide)
    obtain ⟨tail, htail⟩ := blankSplits_cons s
      (' ' :: '<' :: (pred ++ '>' :: ' ' :: (renderObject ob ++ t))) hne
    simp [parseStatement, hdrop, htw.1, htw.2, htail, List.findSome?_cons,
      parsePredObj_render (Subject.Blank s) pred ob t hpred hob ht]

/-- With label output disabled, `handle` succeeds on every line the
grammar accepts. -/
theorem handle_ok_no_labels (T : RefTables) (n : Nat) (line : Str)
    (st : Statement) (w : WState) (h : parseStatement line = some st) :
    ∃ w2, handle T false n line w = Except.ok w2 := by
  simp only [handle, parse, h]
  cases he : entity st.subject with
  | none => exact ⟨_, rfl⟩
  | some id =>
    simp only [maybe_write_label, if_neg (by simp : ¬ false = true)]
    exact ⟨_, rfl⟩

/-- The batch line loop stops at the first line outside the grammar,
reporting the batch tag and that line's text. -/
theorem runLines_stops (T : RefTables) (n : Nat) (bad : Str) (post : List Str)
    (hbad : parseStatement bad = none) :
    ∀ (pre : List Str) (w : WState),
      (∀ l ∈ pre, ∃ st, parseStatement l = some st) →
      runLines T false n (pre ++ bad :: post) w =
        Except.error (Fatal.parseErr n bad) := by
  intro pre
  induction pre with
  | nil =>
    intro w _
    simp [runLines, handle, parse, hbad]
  | cons l pre ih =>
    intro w hall
    obtain ⟨st, hst⟩ := hall l (by simp)
    obtain ⟨w2, hw2⟩ := handle_ok_no_labels T n l st w hst
    simp only [List.cons_append, runLines, hw2]
    exact ih w2 (fun x hx => hall x (by simp [hx]))

/-- C6: for every line the parser matches only the first statement,
ignoring whitespace-headed trailing content such as a terminating period;
a line outside the grammar fails fatally with an error carrying the
reported line number and the offending text, and the worker's line loop
stops at the first such line rather than skipping it. -/
theorem c6_amended_parse :
    (∀ (st : Statement) (t : List Char) (n : Nat), wfStatement st = true →
      wsHead t → parse n (render st ++ t) = Except.ok st) ∧
    (∀ (n : Nat) (s : Str), parseStatement s = none →
      parse n s = Except.error (n, s)) ∧
    (∀ (T : RefTables) (n : Nat) (bad : Str) (pre post : List Str) (w : WState),
      parseStatement bad = none →
      (∀ l ∈ pre, ∃ st, parseStatement l = some st) →
      runLines T false n (pre ++ bad :: post) w =
        Except.error (Fatal.parseErr n bad)) := by
  refine ⟨?_, ?_, ?_⟩
  · intro st t n hwf ht
    simp [parse, parseStatement_render st t hwf ht]
  · intro n s h
    simp [parse, h]
  · intro T n bad pre post w hbad hall
    exact runLines_stops T n bad post hbad pre w hall

/-- C6 counterexample: the number carried by the fatal error is the
batch's cumulative line-count tag, not the offending line's own 1-based
number.  Here the bad line is the first line read (1-based number 1), the
producer tags the batch with 2, and the error reports 2. -/
theorem c6_counterexample :
    produce 0 [badLineC6, goodLineC6] = [(2, [badLineC6, goodLineC6])] ∧
    ([badLineC6, goodLineC6].head? = some badLineC6 ∧
      parseStatement badLineC6 = none) ∧
    runBatches T0 false (produce 0 [badLineC6, goodLineC6])
      (WState.mk [] [] none) = Except.error (Fatal.parseErr 2 badLineC6) := by
  refine ⟨by decide, ⟨rfl, by decide⟩, ?_⟩
  rfl

/-- C6 witness: a concrete well-formed statement followed by a period is
parsed back exactly, the trailing period ignored. -/
theorem c6_witness :
    parse 1 (render (Statement.mk (Subject.IRI ['a']) ['b'] (Object.IRI ['c'])) ++
        [' ', '.']) =
      Except.ok (Statement.mk (Subject.IRI ['a']) ['b'] (Object.IRI ['c'])) :=
  c6_amended_parse.1 (Statement.mk (Subject.IRI ['a']) ['b'] (Object.IRI ['c']))
    [' ', '.'] 1 (by decide)
    (by
      intro c hc
      simp only [List.head?_cons, Option.some.injEq] at hc
      subst hc
      decide)

end WikidataFilter
